import Mathlib

/-!
Verification development for the frontend dependency analyzer
(src/frontend_analyzer.py).  The Python source is shallowly embedded:
strings are lists of characters (so that string reasoning is plain list
reasoning), filesystem paths are lists of path segments, Python dicts and
sets are association lists and duplicate-free lists in insertion order,
and the recursive walker and cycle detector are embedded with an explicit
fuel argument whose sufficiency is justified by the very guards the source
uses (the `depth > max_depth` check for the walker; for the cycle detector
a fuel-irrelevance theorem is proved).  File reading and regex matching
are abstracted as environment functions; all control flow, ordering and
state updates are translated from the source.
-/

/-- Python strings are modelled as lists of characters. -/
abbrev Str := List Char

/-- Boolean prefix test on lists, modelling Python str.startswith
(and pathlib prefix tests on path segments). -/
def isPrefixL [DecidableEq α] : List α → List α → Bool
  | [], _ => true
  | _ :: _, [] => false
  | a :: as, b :: bs => a = b && isPrefixL as bs

/-- Boolean suffix test, modelling Python str.endswith. -/
def isSuffixL [DecidableEq α] (suffix l : List α) : Bool :=
  isPrefixL suffix.reverse l.reverse

/-- Boolean substring-containment test, modelling the Python expression
needle in haystack on strings. -/
def isSubL [DecidableEq α] (needle : List α) : List α → Bool
  | [] => needle.isEmpty
  | b :: bs => isPrefixL needle (b :: bs) || isSubL needle bs

/-- Python str.split(sep) for a one-character separator.  On the empty
string it returns a single empty piece, as Python does. -/
def splitOnChar (c : Char) : Str → List Str
  | [] => [[]]
  | x :: xs =>
    if x = c then [] :: splitOnChar c xs
    else
      match splitOnChar c xs with
      | [] => [[x]]
      | h :: t => (x :: h) :: t

/-- Python association: dict lookup over an insertion-ordered list of
key-value pairs. -/
def lookupA [DecidableEq κ] (k : κ) : List (κ × α) → Option α
  | [] => none
  | (k', v) :: t => if k' = k then some v else lookupA k t

/-- Python dict assignment d[k] = v: replace in place if the key exists
(preserving its position, as Python dicts do), otherwise append. -/
def insertA [DecidableEq κ] (k : κ) (v : α) : List (κ × α) → List (κ × α)
  | [] => [(k, v)]
  | (k', v') :: t => if k' = k then (k, v) :: t else (k', v') :: insertA k v t

/-- Python set.add modelled on a duplicate-free list in insertion order. -/
def addSet [DecidableEq α] (a : α) (l : List α) : List α :=
  if a ∈ l then l else l ++ [a]

/-- The style-extension suffixes tested by _categorize_dependency
(the Python tuple ('.css', '.scss', '.less', '.sass')). -/
def styleExts : List Str := [".css".data, ".scss".data, ".less".data, ".sass".data]

/-- Python str.endswith(tuple): true if any of the suffixes matches. -/
def endsWithAny (suffixes : List Str) (s : Str) : Bool :=
  suffixes.any (fun suf => isSuffixL suf s)

/-- The seven dependency categories of the classifier. -/
inductive Category where
  | component
  | hook
  | util
  | type
  | api
  | style
  | external
deriving DecidableEq, Repr

/-- DependencyInfo from the source: categorized import specifiers of one
file.  components is a dict from specifier to a nested DependencyInfo
(hence the nested inductive); the other six collections are Python sets,
modelled as insertion-ordered duplicate-free lists. -/
inductive DepInfo where
  | mk : List (Str × DepInfo) → List Str → List Str → List Str → List Str →
      List Str → List Str → Nat → Option Str → DepInfo

/-- Accessor for the components dict. -/
def DepInfo.components : DepInfo → List (Str × DepInfo)
  | .mk c _ _ _ _ _ _ _ _ => c

/-- Accessor for the hooks set. -/
def DepInfo.hooks : DepInfo → List Str
  | .mk _ h _ _ _ _ _ _ _ => h

/-- Accessor for the utils set. -/
def DepInfo.utils : DepInfo → List Str
  | .mk _ _ u _ _ _ _ _ _ => u

/-- Accessor for the types set. -/
def DepInfo.typesSet : DepInfo → List Str
  | .mk _ _ _ t _ _ _ _ _ => t

/-- Accessor for the styles set. -/
def DepInfo.styles : DepInfo → List Str
  | .mk _ _ _ _ st _ _ _ _ => st

/-- Accessor for the external set. -/
def DepInfo.externalSet : DepInfo → List Str
  | .mk _ _ _ _ _ e _ _ _ => e

/-- Accessor for the api set. -/
def DepInfo.apiSet : DepInfo → List Str
  | .mk _ _ _ _ _ _ a _ _ => a

/-- Accessor for the depth field. -/
def DepInfo.depth : DepInfo → Nat
  | .mk _ _ _ _ _ _ _ d _ => d

/-- Accessor for the parent field. -/
def DepInfo.parentOf : DepInfo → Option Str
  | .mk _ _ _ _ _ _ _ _ p => p

/-- DependencyInfo(depth=d, parent=p) with all collections empty
(the dataclass defaults). -/
def DepInfo.empty (d : Nat) (p : Option Str) : DepInfo :=
  .mk [] [] [] [] [] [] [] d p

/-- The classifier _categorize_dependency, translated branch for branch
from the source.  It mutates the given DependencyInfo; here it returns the
updated record.  The alias branch tests len(parts) > 1 exactly as the
source does (that test can in fact never fail after startswith('@/'),
which is proved below). -/
def categorizeDependency (importPath : Str) (deps : DepInfo) : DepInfo :=
  match deps with
  | .mk comps hooks utils types styles external api depth parent =>
    if isPrefixL "@/".data importPath then
      let parts := splitOnChar '/' importPath
      if parts.length > 1 then
        let category := parts.getD 1 []
        if category = "components".data then
          .mk (insertA importPath (DepInfo.empty (depth + 1) (some importPath)) comps)
            hooks utils types styles external api depth parent
        else if category = "hooks".data then
          .mk comps (addSet importPath hooks) utils types styles external api depth parent
        else if category = "utils".data then
          .mk comps hooks (addSet importPath utils) types styles external api depth parent
        else if category = "types".data then
          .mk comps hooks utils (addSet importPath types) styles external api depth parent
        else if category = "api".data then
          .mk comps hooks utils types styles external (addSet importPath api) depth parent
        else if endsWithAny styleExts category then
          .mk comps hooks utils types (addSet importPath styles) external api depth parent
        else
          .mk comps hooks (addSet importPath utils) types styles external api depth parent
      else
        .mk comps hooks utils types styles external api depth parent
    else if isSubL "components".data importPath then
      .mk (insertA importPath (DepInfo.empty (depth + 1) (some importPath)) comps)
        hooks utils types styles external api depth parent
    else if isSubL "hooks".data importPath then
      .mk comps (addSet importPath hooks) utils types styles external api depth parent
    else if isSubL "utils".data importPath then
      .mk comps hooks (addSet importPath utils) types styles external api depth parent
    else if isSubL "types".data importPath || isSuffixL ".d.ts".data importPath then
      .mk comps hooks utils (addSet importPath types) styles external api depth parent
    else if isSubL "api".data importPath then
      .mk comps hooks utils types styles external (addSet importPath api) depth parent
    else if endsWithAny styleExts importPath then
      .mk comps hooks utils types (addSet importPath styles) external api depth parent
    else if !(["/".data, ".".data, "@".data].any (fun p => isPrefixL p importPath)) then
      .mk comps hooks utils types styles (addSet importPath external) api depth parent
    else
      .mk comps hooks (addSet importPath utils) types styles external api depth parent

/-- The category _categorize_dependency files a specifier under, following
the same decision tree as the source; none corresponds to the source's
silent drop when the alias branch sees a single-piece split (dead code,
proved unreachable below). -/
def categoryOf (importPath : Str) : Option Category :=
  if isPrefixL "@/".data importPath then
    let parts := splitOnChar '/' importPath
    if parts.length > 1 then
      let category := parts.getD 1 []
      if category = "components".data then some .component
      else if category = "hooks".data then some .hook
      else if category = "utils".data then some .util
      else if category = "types".data then some .type
      else if category = "api".data then some .api
      else if endsWithAny styleExts category then some .style
      else some .util
    else none
  else if isSubL "components".data importPath then some .component
  else if isSubL "hooks".data importPath then some .hook
  else if isSubL "utils".data importPath then some .util
  else if isSubL "types".data importPath || isSuffixL ".d.ts".data importPath then some .type
  else if isSubL "api".data importPath then some .api
  else if endsWithAny styleExts importPath then some .style
  else if !(["/".data, ".".data, "@".data].any (fun p => isPrefixL p importPath)) then
    some .external
  else some .util

/-- Classifier written from the words of the specification (section 4.2 and
claim C2): for a specifier starting with the alias prefix the segment
immediately after the alias root decides the category; otherwise substring
checks in the fixed order components, hooks, utils, types or .d.ts, api,
style suffix; a specifier starting with none of /, ., @ is external;
anything else defaults to util. -/
def specCategorizeC2 (specifier : Str) : Category :=
  if isPrefixL "@/".data specifier then
    let segment := (splitOnChar '/' specifier).getD 1 []
    if segment = "components".data then .component
    else if segment = "hooks".data then .hook
    else if segment = "utils".data then .util
    else if segment = "types".data then .type
    else if segment = "api".data then .api
    else if endsWithAny styleExts segment then .style
    else .util
  else if isSubL "components".data specifier then .component
  else if isSubL "hooks".data specifier then .hook
  else if isSubL "utils".data specifier then .util
  else if isSubL "types".data specifier || isSuffixL ".d.ts".data specifier then .type
  else if isSubL "api".data specifier then .api
  else if endsWithAny styleExts specifier then .style
  else if !(["/".data, ".".data, "@".data].any (fun p => isPrefixL p specifier)) then
    .external
  else .util

/-- Applying a category to a DependencyInfo: the single collection update
each branch of _categorize_dependency performs. -/
def applyCat (c : Category) (importPath : Str) (deps : DepInfo) : DepInfo :=
  match deps with
  | .mk comps hooks utils types styles external api depth parent =>
    match c with
    | .component =>
      .mk (insertA importPath (DepInfo.empty (depth + 1) (some importPath)) comps)
        hooks utils types styles external api depth parent
    | .hook => .mk comps (addSet importPath hooks) utils types styles external api depth parent
    | .util => .mk comps hooks (addSet importPath utils) types styles external api depth parent
    | .type => .mk comps hooks utils (addSet importPath types) styles external api depth parent
    | .api => .mk comps hooks utils types styles external (addSet importPath api) depth parent
    | .style => .mk comps hooks utils types (addSet importPath styles) external api depth parent
    | .external =>
      .mk comps hooks utils types styles (addSet importPath external) api depth parent

/-- The keys held by one of the seven collections of a DependencyInfo. -/
def fieldKeys (c : Category) (deps : DepInfo) : List Str :=
  match c with
  | .component => deps.components.map Prod.fst
  | .hook => deps.hooks
  | .util => deps.utils
  | .type => deps.typesSet
  | .api => deps.apiSet
  | .style => deps.styles
  | .external => deps.externalSet

/-- All seven categories. -/
def allCategories : List Category :=
  [.component, .hook, .util, .type, .api, .style, .external]

/-! ## Cycle detector (_find_circular_dependencies) -/

/-- Adjacency of the dependency graph: dependency_graph[start_file], an
empty set when the key is absent (defaultdict behaviour). -/
def adjOf (g : List (Str × List Str)) (s : Str) : List Str :=
  (lookupA s g).getD []

/-- Every edge target occurring in the graph. -/
def allTargets (g : List (Str × List Str)) : List Str :=
  (g.map Prod.snd).flatten

/-- Fuel bound for the cycle search: one more than the number of distinct
edge targets.  Each recursive call of the source pushes onto the current
path a target not already on it, so this fuel is never exhausted (proved
below as fuel irrelevance). -/
def cyclesBound (g : List (Str × List Str)) : Nat :=
  (allTargets g).dedup.length + 1

/-- The cycle detector _find_circular_dependencies, translated from the
source with an explicit fuel argument: current_path = path + [start_file];
for each outgoing edge, a target already on the current path yields the
cycle current_path[current_path.index(target):] + [target], otherwise the
search recurses with the extended path, and per-edge results are
concatenated in edge order. -/
def findCyclesF (g : List (Str × List Str)) : Nat → Str → List Str → List (List Str)
  | 0, _, _ => []
  | fuel + 1, startFile, path =>
    let currentPath := path ++ [startFile]
    (adjOf g startFile).flatMap (fun dep =>
      if dep ∈ currentPath then
        [currentPath.drop (currentPath.indexOf dep) ++ [dep]]
      else
        findCyclesF g fuel dep currentPath)

/-- The cycle detector at its sufficient fuel. -/
def findCycles (g : List (Str × List Str)) (startFile : Str) (path : List Str) :
    List (List Str) :=
  findCyclesF g (cyclesBound g) startFile path

/-- Number of distinct edge targets not yet on the current path: the
termination measure of the cycle search. -/
def missingCount (g : List (Str × List Str)) (currentPath : List Str) : Nat :=
  ((allTargets g).dedup.filter (fun n => !decide (n ∈ currentPath))).length

/-! ## Dependency walker (analyze_file / _process_file / _analyze_dependencies) -/

/-- FileInfo from the source: relative path, detected file type, extracted
dependencies and the analyzed flag. -/
structure FileInfoM where
  path : Str
  fileType : Str
  dependencies : DepInfo
  analyzed : Bool

/-- The analyzer's mutable state: the files table (dict keyed by the
path relative to the project root), the dependency graph (defaultdict of
sets), a log of the keys whose dependencies were extracted (one entry per
executed extraction, in order), and a count of reported non-fatal
errors (the console error prints of the source). -/
structure AnalyzerSt where
  files : List (Str × FileInfoM)
  graph : List (Str × List Str)
  extractLog : List Str
  errors : Nat

/-- The analyzer's initial state: empty tables. -/
def initSt : AnalyzerSt := ⟨[], [], [], 0⟩

/-- Environment of one analysis run.  maxDepth and deepMode come from the
config; fexists models Path.exists; rel models
Path.relative_to(project_root) (none when the call raises ValueError);
ignore models _should_ignore; ftype models _determine_file_type; readFile
models Path.read_text (none when it raises); extractSpecs models the regex
scan of _extract_dependencies, returning the matched import specifiers of
a file content in match order; resolve models _resolve_dependency_path
(instantiated with the embedded resolver for the resolver claims). -/
structure WalkEnv where
  maxDepth : Nat
  deepMode : Bool
  fexists : Str → Bool
  rel : Str → Option Str
  ignore : Str → Bool
  ftype : Str → Option Str
  readFile : Str → Option Str
  extractSpecs : Str → List Str
  resolve : Str → Option Str

/-- The dependency-extraction part of _process_file: a fresh
DependencyInfo at the given depth, filled by _categorize_dependency over
every import specifier the patterns match, in match order. -/
def extractDependencies (env : WalkEnv) (content : Str) (d : Nat) : DepInfo :=
  (env.extractSpecs content).foldl (fun acc s => categorizeDependency s acc)
    (DepInfo.empty d none)

/-- The function _process_file: computes the relative path (a raised
ValueError is caught and reported), skips ignored files and files of
unknown type, reads and extracts (a raised read error is caught and
reported), then stores the analyzed FileInfo under the relative key.  All
state changes happen at the final assignment, so the caught exceptions
leave the tables unchanged. -/
def processFile (env : WalkEnv) (st : AnalyzerSt) (fp : Str) (d : Nat) : AnalyzerSt :=
  match env.rel fp with
  | none => { st with errors := st.errors + 1 }
  | some relKey =>
    if env.ignore fp then st
    else
      match env.ftype fp with
      | none => st
      | some ft =>
        match env.readFile fp with
        | none => { st with errors := st.errors + 1 }
        | some content =>
          { st with
            files := insertA relKey
              ⟨relKey, ft, extractDependencies env content d, true⟩ st.files,
            extractLog := st.extractLog ++ [relKey] }

/-- Whether the key is present in the files table with analyzed = True. -/
def analyzedKeyB (st : AnalyzerSt) (k : Str) : Bool :=
  match lookupA k st.files with
  | some fi => fi.analyzed
  | none => false

/-- The function _is_analyzed: relative path in the files table and marked
analyzed; False when relative_to raises. -/
def isAnalyzedB (env : WalkEnv) (st : AnalyzerSt) (fp : Str) : Bool :=
  match env.rel fp with
  | some k => analyzedKeyB st k
  | none => false

/-- The statement self.dependency_graph[file_key].add(target): set insert
under the defaultdict key. -/
def graphAdd (fk r : Str) : List (Str × List Str) → List (Str × List Str)
  | [] => [(fk, [r])]
  | (k, ts) :: t =>
    if k = fk then (k, addSet r ts) :: t else (k, ts) :: graphAdd fk r t

/-- The per-dependency loop body of _analyze_dependencies, shared verbatim
by its components loop and its hooks/utils loop: resolve the specifier; on
success add the edge file_key -> str(resolved) and, only if the resolved
target is not already marked analyzed, recurse into it (the recursion is
the next argument).  A specifier that does not resolve contributes
nothing and raises nothing. -/
def depLoop (env : WalkEnv) (next : AnalyzerSt → Str → AnalyzerSt) (fileKey : Str) :
    AnalyzerSt → List Str → AnalyzerSt
  | st, [] => st
  | st, depPath :: rest =>
    let st2 :=
      match env.resolve depPath with
      | none => st
      | some r =>
        let st3 := { st with graph := graphAdd fileKey r st.graph }
        if isAnalyzedB env st3 r then st3 else next st3 r
    depLoop env next fileKey st2 rest

/-- The walker analyze_file with _analyze_dependencies inlined, on explicit
fuel (one unit per nesting level; the depth guard makes the fuel of the
wrapper below always sufficient).  Follows the source exactly: return if
depth > max_depth; report an error and return if the file does not exist;
_process_file; then in deep mode _analyze_dependencies(file_path,
depth + 1), which looks up the freshly stored FileInfo under the relative
key (str(file_path) when relative_to raises), returns if absent, and runs
the dependency loop over the component keys, then the hooks, then the
utils, recursing at the incremented depth. -/
def analyzeFileF (env : WalkEnv) : Nat → AnalyzerSt → Str → Nat → AnalyzerSt
  | 0, st, _, _ => st
  | fuel + 1, st, fp, d =>
    if env.maxDepth < d then st
    else if env.fexists fp = false then { st with errors := st.errors + 1 }
    else
      let st1 := processFile env st fp d
      if env.deepMode then
        let fileKey := (env.rel fp).getD fp
        match lookupA fileKey st1.files with
        | none => st1
        | some fi =>
          depLoop env (fun st3 r => analyzeFileF env fuel st3 r (d + 1)) fileKey st1
            (fi.dependencies.components.map Prod.fst ++ fi.dependencies.hooks ++
              fi.dependencies.utils)
      else st1

/-- The function analyze_file.  The fuel maxDepth + 2 - depth is one more
than the number of remaining admissible nesting levels, so the fuel-zero
branch of analyzeFileF coincides with the depth guard and is never the
deciding case: for depth greater than max_depth both return the state
unchanged, exactly as the source does. -/
def analyzeFile (env : WalkEnv) (st : AnalyzerSt) (fp : Str) (d : Nat) : AnalyzerSt :=
  analyzeFileF env (env.maxDepth + 2 - d) st fp d

/-! ## Search index build (_build_search_index, file_index part) -/

/-- One entry of the filesystem walk project_root.rglob('*'): the full
path parts and whether the entry is a regular file. -/
structure FSEntry where
  parts : List Str
  isFile : Bool

/-- The function _should_ignore: some part of the path is in the
ignore-pattern set. -/
def shouldIgnoreParts (ignorePats : List Str) (parts : List Str) : Bool :=
  parts.any (fun part => decide (part ∈ ignorePats))

/-- Joining path segments with '/', modelling str() of a relative
PosixPath. -/
def joinSlash (segs : List Str) : Str :=
  (List.intersperse "/".data segs).flatten

/-- The statement file_index[name].add(relative_path): defaultdict set
insert, creating the key at the end on first use. -/
def indexAdd (name relPath : Str) (idx : List (Str × List Str)) : List (Str × List Str) :=
  match lookupA name idx with
  | some paths => insertA name (addSet relPath paths) idx
  | none => idx ++ [(name, [relPath])]

/-- The file_index part of _build_search_index: iterate the walk once; skip
entries that are not files or whose path has an ignored segment; record the
entry's basename under its path relative to the walk root (the source
derives that root as the great-grandparent of the configured target path).
The content-dependent indexing that follows in the source (extension
and import indexes) can raise per file, but only after this insert,
so the insert is unconditional here. -/
def buildFileIndex (ignorePats : List Str) (rootLen : Nat) :
    List FSEntry → List (Str × List Str) → List (Str × List Str)
  | [], idx => idx
  | e :: rest, idx =>
    if e.isFile = false || shouldIgnoreParts ignorePats e.parts then
      buildFileIndex ignorePats rootLen rest idx
    else
      buildFileIndex ignorePats rootLen rest
        (indexAdd (e.parts.getLastD []) (joinSlash (e.parts.drop rootLen)) idx)

/-- Membership of a path under a basename in the file index. -/
def idxMem (name p : Str) (idx : List (Str × List Str)) : Prop :=
  ∃ paths, lookupA name idx = some paths ∧ p ∈ paths

/-! ## Path resolver (_resolve_dependency_path and _find_file) -/

/-- An abstract filesystem: the existing regular files and the existing
directories, as absolute normalized segment paths.  Path.exists() is true
for both. -/
structure FS where
  files : List (List Str)
  dirs : List (List Str)

/-- The parts a path string contributes when joined with pathlib: split on
'/', dropping empty pieces and single dots (native PurePath behaviour)
while keeping '..' segments. -/
def rawSegsOf (s : Str) : List Str :=
  (splitOnChar '/' s).filter (fun seg => !(decide (seg = []) || decide (seg = ".".data)))

/-- Collapsing '..' segments, as Path.resolve() does (at the root a '..'
stays at the root). -/
def normalizeSegs (segs : List Str) : List Str :=
  segs.foldl
    (fun acc seg =>
      if seg = "..".data then acc.dropLast
      else if seg = ".".data then acc
      else acc ++ [seg]) []

/-- Path.exists() on the abstract filesystem.  The query is normalized
first, modelling the fact that the operating system resolves '..' while
answering. -/
def fsExists (fs : FS) (p : List Str) : Bool :=
  decide (normalizeSegs p ∈ fs.files) || decide (normalizeSegs p ∈ fs.dirs)

/-- The extension/index probe list of the source, in its order. -/
def EXTS : List Str :=
  [".tsx".data, ".jsx".data, ".ts".data, ".js".data, ".vue".data,
    "/index.tsx".data, "/index.jsx".data, "/index.ts".data, "/index.js".data,
    "/index.vue".data]

/-- Index of the last '.' of a name, if any. -/
def lastDotPos (name : Str) : Option Nat :=
  (name.enum.filterMap (fun pair => if pair.2 = '.' then some pair.1 else none)).getLast?

/-- The stem pathlib's with_suffix keeps: everything before the last '.'
provided that dot is neither leading nor trailing, otherwise the whole
name. -/
def stemOfName (name : Str) : Str :=
  match lastDotPos name with
  | some i => if 0 < i ∧ i < name.length - 1 then name.take i else name
  | none => name

/-- One probe entry applied to a path: a '/'-prefixed entry is appended as
an extra segment (Path(str(p) + ext)), any other entry replaces the
existing suffix of the last segment (p.with_suffix(ext)). -/
def applyExt (p : List Str) (ext : Str) : List Str :=
  if isPrefixL "/".data ext then p ++ [ext.drop 1]
  else
    match p.getLast? with
    | none => p
    | some lastSeg => p.dropLast ++ [stemOfName lastSeg ++ ext]

/-- The probe loop shared by the resolution strategies: first existing
probed path wins. -/
def probeExts (fs : FS) (p : List Str) : List Str → Option (List Str)
  | [] => none
  | ext :: rest =>
    let t := applyExt p ext
    if fsExists fs t then some t else probeExts fs p rest

/-- Strategy 1 of _resolve_dependency_path: for a specifier starting with
'./' or '../', resolve against the strategy's current directory, return it
if it exists, otherwise probe the extension list; none both when the
specifier is not relative and when nothing exists (the source then falls
through to the next strategy). -/
def relativeStrategy (fs : FS) (currentDir : List Str) (importPath : Str) :
    Option (List Str) :=
  if isPrefixL "./".data importPath || isPrefixL "../".data importPath then
    let resolved := normalizeSegs (currentDir ++ rawSegsOf importPath)
    if fsExists fs resolved then some resolved else probeExts fs resolved EXTS
  else none

/-- Strategy 2 of _resolve_dependency_path: for a specifier starting with
'@/' and an '@' entry in the alias table, substitute the mapping once,
join under the project root, and test existence then the probe list. -/
def aliasStrategy (fs : FS) (aliases : List (Str × Str)) (projectRoot : List Str)
    (importPath : Str) : Option (List Str) :=
  if isPrefixL "@/".data importPath then
    match lookupA "@".data aliases with
    | some repl =>
      let full := projectRoot ++ rawSegsOf (repl ++ '/' :: importPath.drop 2)
      if fsExists fs full then some full else probeExts fs full EXTS
    | none => none
  else none

/-- The search index as the resolver sees it: filename to relative
paths, and import specifier to relative paths of importers.  Python iterates these
sets in unspecified order; the model fixes insertion order. -/
structure SearchIdxR where
  fileIndex : List (Str × List Str)
  importIndex : List (Str × List Str)

/-- Strategy 3 of _resolve_dependency_path: a nonempty import_index entry
for the literal specifier yields project_root joined with the first
element. -/
def indexStrategy (idx : SearchIdxR) (projectRoot : List Str) (importPath : Str) :
    Option (List Str) :=
  match lookupA importPath idx.importIndex with
  | some (p :: _) => some (projectRoot ++ rawSegsOf p)
  | _ => none

/-- Lower-casing a string, for the case-insensitive fnmatch calls. -/
def lowerS (s : Str) : Str := s.map Char.toLower

/-- Helper of the glob matcher: does the predicate hold of some suffix. -/
def anySuffix (f : Str → Bool) : Str → Bool
  | [] => f []
  | c :: s => f (c :: s) || anySuffix f s

/-- Glob matching as fnmatch performs it for the patterns the source
builds ('*' any run, '?' any one character; the source's patterns contain
no character classes). -/
def globMatch : Str → Str → Bool
  | [], s => s.isEmpty
  | '*' :: ps, s => anySuffix (fun s2 => globMatch ps s2) s
  | '?' :: ps, s =>
    match s with
    | [] => false
    | _ :: s2 => globMatch ps s2
  | c :: ps, s =>
    match s with
    | [] => false
    | c2 :: s2 => decide (c = c2) && globMatch ps s2

/-- Cardinality of the symmetric difference of two part lists taken as
sets: the len(set(a) ^ set(b)) proximity key of _find_file. -/
def symmDiffCard (a b : List Str) : Nat :=
  ((a.dedup.filter (fun x => !decide (x ∈ b))) ++
    (b.dedup.filter (fun x => !decide (x ∈ a)))).length

/-- Python min with a key function: first minimum wins, none on an empty
list (where Python would raise ValueError). -/
def minByKey (key : α → Nat) : List α → Option α
  | [] => none
  | x :: xs => some (xs.foldl (fun best y => if key y < key best then y else best) x)

/-- The min(...) expression of _find_file: joins each candidate relative
path under the project root and picks the one whose parts are closest to
the current directory's parts. -/
def minBySymm (projectRoot curDir : List Str) (paths : List Str) : Option (List Str) :=
  minByKey (fun p => symmDiffCard p curDir) (paths.map (fun p => projectRoot ++ rawSegsOf p))

/-- Step 2 of _find_file: for each fuzzy pattern in turn, collect the paths
of all index entries whose filename matches case-insensitively (the model
fixes the set-union iteration order to index order, deduplicated); a
single candidate is returned directly, several go through the proximity
key.  The source only reaches the next pattern when no filename matched
(current_dir is always truthy at the call site). -/
def fuzzyLoop (idx : SearchIdxR) (projectRoot curDir : List Str) : List Str → Option (List Str)
  | [] => none
  | pat :: rest =>
    let found := ((idx.fileIndex.filter
      (fun e => globMatch (lowerS pat) (lowerS e.1))).map Prod.snd).flatten.dedup
    if found.isEmpty then fuzzyLoop idx projectRoot curDir rest
    else if found.length = 1 then some (projectRoot ++ rawSegsOf (found.getD 0 []))
    else minBySymm projectRoot curDir found

/-- Step 3 of _find_file: current_dir.rglob('*name*'), first entry that is
a file and not ignored, in the walk order the filesystem model fixes. -/
def rglobFirst (fs : FS) (ignorePats : List Str) (curDir : List Str) (name : Str) :
    Option (List Str) :=
  (fs.files.filter (fun p =>
    isPrefixL curDir p && !decide (p = curDir) &&
    globMatch ('*' :: name ++ ['*']) (p.getLastD []) &&
    !shouldIgnoreParts ignorePats p)).head?

/-- The function _find_file: exact file_index hit (single path, or closest
of several; an impossible empty entry answers none where Python would
raise on min of an empty sequence), then the three fuzzy patterns, then a
live recursive search under the current directory.  The lru_cache of the
source only memoizes this pure lookup and is semantically absent. -/
def findFileM (fs : FS) (idx : SearchIdxR) (ignorePats : List Str) (projectRoot : List Str)
    (name : Str) (curDir : List Str) : Option (List Str) :=
  match lookupA name idx.fileIndex with
  | some paths =>
    if paths.length = 1 then some (projectRoot ++ rawSegsOf (paths.getD 0 []))
    else if paths.isEmpty then none
    else minBySymm projectRoot curDir paths
  | none =>
    match fuzzyLoop idx projectRoot curDir
      ['*' :: name ++ ['*'], '*' :: name, name ++ ['*']] with
    | some p => some p
    | none => rglobFirst fs ignorePats curDir name

/-- Python os.path.basename: the piece after the last '/'. -/
def basenameStr (s : Str) : Str := (splitOnChar '/' s).getLastD []

/-- The stem os.path.splitext keeps: everything before the last '.'
provided some non-dot character precedes it, otherwise the whole name. -/
def splitextStem (name : Str) : Str :=
  match lastDotPos name with
  | some i => if (name.take i).any (fun c => decide (c ≠ '.')) then name.take i else name
  | none => name

/-- Pathlib join current_dir / import_path: an absolute specifier resets
to the filesystem root. -/
def joinPathAbs (curDir : List Str) (s : Str) : List Str :=
  if isPrefixL "/".data s then rawSegsOf s else curDir ++ rawSegsOf s

/-- Python str.lstrip('/'): leading slashes removed. -/
def lstripSlash (s : Str) : Str := s.dropWhile (fun c => decide (c = '/'))

/-- Strategy 5 of _resolve_dependency_path: per probe entry, first the path
under the project root, then the path under the current directory. -/
def extProbeLoop (fs : FS) (basePath currentBase : List Str) : List Str → Option (List Str)
  | [] => none
  | ext :: rest =>
    let full := applyExt basePath ext
    if fsExists fs full then some full
    else
      let currentFull := applyExt currentBase ext
      if fsExists fs currentFull then some currentFull
      else extProbeLoop fs basePath currentBase rest

/-- The function _resolve_dependency_path, strategies in source order with
fall-through on failure.  Its project root is the great-grandparent of the
configured project path and its current directory is the parent of the
configured project path — both fixed for the whole run, independent of the
file whose dependencies are being resolved. -/
def resolveDependencyPath (fs : FS) (idx : SearchIdxR) (aliases : List (Str × Str))
    (ignorePats : List Str) (cfgProjectPath : List Str) (importPath : Str) :
    Option (List Str) :=
  let projectRoot := cfgProjectPath.dropLast.dropLast.dropLast
  let currentDir := cfgProjectPath.dropLast
  match relativeStrategy fs currentDir importPath with
  | some p => some p
  | none =>
    match aliasStrategy fs aliases projectRoot importPath with
    | some p => some p
    | none =>
      match indexStrategy idx projectRoot importPath with
      | some p => some p
      | none =>
        match
          (if (basenameStr importPath).isEmpty then none
           else findFileM fs idx ignorePats projectRoot
             (splitextStem (basenameStr importPath)) currentDir) with
        | some p => some p
        | none =>
          extProbeLoop fs (projectRoot ++ rawSegsOf (lstripSlash importPath))
            (joinPathAbs currentDir importPath) EXTS

/-- Modelled from the spec (section 4.3 step 1, quoted by claim C5): for a
specifier starting with './' or '../', resolve it against currentFileDir,
the directory of the file currently being analyzed; if that exact path
does not exist, probe the ordered extension/index list and return the
first existing probed path. -/
def specRelativeResolve (fs : FS) (currentFileDir : List Str) (spec : Str) :
    Option (List Str) :=
  if isPrefixL "./".data spec || isPrefixL "../".data spec then
    let exact := normalizeSegs (currentFileDir ++ rawSegsOf spec)
    if fsExists fs exact then some exact else probeExts fs exact EXTS
  else none

/-! ## Concrete scenarios for the claims -/

/-- The three-cycle graph of claim C1: edges A to B, B to C, C to A. -/
def cycleGraphC1 : List (Str × List Str) :=
  [("A".data, ["B".data]), ("B".data, ["C".data]), ("C".data, ["A".data])]

/-- Scenario for the memoization claim: two files that import each other
through util specifiers, so the second is reached from the first and the
first is reached again from the second. -/
def c3env : WalkEnv where
  maxDepth := 5
  deepMode := true
  fexists := fun p => decide (p = "src/A.ts".data) || decide (p = "src/B.ts".data)
  rel := fun p => some p
  ignore := fun _ => false
  ftype := fun _ => some "typescript".data
  readFile := fun p =>
    if p = "src/A.ts".data then some "contentA".data
    else if p = "src/B.ts".data then some "contentB".data
    else none
  extractSpecs := fun c =>
    if c = "contentA".data then ["../utilsB".data]
    else if c = "contentB".data then ["../utilsA".data]
    else []
  resolve := fun s =>
    if s = "../utilsB".data then some "src/B.ts".data
    else if s = "../utilsA".data then some "src/A.ts".data
    else none

/-- Scenario for the depth-truncation claim: max_depth = 0, file A whose
only dependency resolves to file B. -/
def c4env : WalkEnv where
  maxDepth := 0
  deepMode := true
  fexists := fun p => decide (p = "A.ts".data) || decide (p = "B.ts".data)
  rel := fun p => some p
  ignore := fun _ => false
  ftype := fun _ => some "typescript".data
  readFile := fun p => if p = "A.ts".data then some "contentA".data else some "contentB".data
  extractSpecs := fun c => if c = "contentA".data then ["./depB".data] else []
  resolve := fun s => if s = "./depB".data then some "B.ts".data else none

/-- Scenario for the unresolved-specifier claim: file A has one specifier
no strategy resolves and one that resolves to B. -/
def c6env : WalkEnv where
  maxDepth := 5
  deepMode := true
  fexists := fun p => decide (p = "A.ts".data) || decide (p = "B.ts".data)
  rel := fun p => some p
  ignore := fun _ => false
  ftype := fun _ => some "typescript".data
  readFile := fun p => if p = "A.ts".data then some "contentA".data else some "contentB".data
  extractSpecs := fun c =>
    if c = "contentA".data then ["./missing".data, "./depB".data] else []
  resolve := fun s => if s = "./depB".data then some "B.ts".data else none

/-- Scenario for the missing-file claim: no path exists. -/
def c7env : WalkEnv where
  maxDepth := 3
  deepMode := true
  fexists := fun _ => false
  rel := fun p => some p
  ignore := fun _ => false
  ftype := fun _ => none
  readFile := fun _ => none
  extractSpecs := fun _ => []
  resolve := fun _ => none

/-- Filesystem of the resolver scenario: the analysis target
root/src/app/A.ts, a file root/src/app/C.ts next to it, and the files
root/lib/B.ts and root/lib/C.ts in a sibling directory. -/
def c5fs : FS where
  files :=
    [["root".data, "src".data, "app".data, "A.ts".data],
     ["root".data, "src".data, "app".data, "C.ts".data],
     ["root".data, "lib".data, "B.ts".data],
     ["root".data, "lib".data, "C.ts".data]]
  dirs :=
    [[], ["root".data], ["root".data, "src".data],
     ["root".data, "src".data, "app".data], ["root".data, "lib".data]]

/-- The configured project path of the resolver scenario: the analysis
target file root/src/app/A.ts, whose great-grandparent root is the project
root and whose parent root/src/app is the resolver's fixed current
directory. -/
def c5cfgPath : List Str := ["root".data, "src".data, "app".data, "A.ts".data]

/-- An empty search index (its content is irrelevant to the scenario: the
relative strategy short-circuits before any index lookup). -/
def c5idx : SearchIdxR where
  fileIndex := []
  importIndex := []

/-- The resolver of the scenario, exactly _resolve_dependency_path over the
scenario filesystem, index and config, producing the str() of the resolved
path. -/
def c5resolve (s : Str) : Option Str :=
  (resolveDependencyPath c5fs c5idx [] [] c5cfgPath s).map joinSlash

/-- Walker environment wired to the embedded resolver: A imports
../../lib/B (resolving to root/lib/B.ts), B imports ./C, C imports
nothing.  File contents are identified with their paths so that
extractSpecs can dispatch per file. -/
def c5env : WalkEnv where
  maxDepth := 5
  deepMode := true
  fexists := fun p => fsExists c5fs (rawSegsOf p)
  rel := fun p =>
    let segs := rawSegsOf p
    if isPrefixL ["root".data] segs then some (joinSlash (segs.drop 1)) else none
  ignore := fun _ => false
  ftype := fun p => if isSuffixL ".ts".data p then some "typescript".data else none
  readFile := fun p => some p
  extractSpecs := fun c =>
    if c = "root/src/app/A.ts".data then ["../../lib/B".data]
    else if c = "root/lib/B.ts".data then ["./C".data]
    else []
  resolve := c5resolve

/-- Edge membership in the analyzer state's dependency graph. -/
def edgeIn (st : AnalyzerSt) (k t : Str) : Prop :=
  ∃ ts, lookupA k st.graph = some ts ∧ t ∈ ts

/-- Every edge target of the state is in the range of the environment's
resolver. -/
def GraphTargetsOK (env : WalkEnv) (st : AnalyzerSt) : Prop :=
  ∀ k t, edgeIn st k t → ∃ s, env.resolve s = some t

/-- The extraction invariant: the extraction log has no duplicates and
every logged key is marked analyzed in the files table. -/
def InvSt (st : AnalyzerSt) : Prop :=
  st.extractLog.Nodup ∧ ∀ k ∈ st.extractLog, analyzedKeyB st k = true

/-! ## Basic lemmas -/

theorem lookupA_insertA_self [DecidableEq κ] (k : κ) (v : α) (l : List (κ × α)) :
    lookupA k (insertA k v l) = some v := by
  induction l with
  | nil => simp [insertA, lookupA]
  | cons p t ih =>
    obtain ⟨k', v'⟩ := p
    by_cases h : k' = k
    · simp [insertA, h, lookupA]
    · simp [insertA, h, lookupA, ih]

theorem lookupA_insertA_ne [DecidableEq κ] (k k' : κ) (v : α) (l : List (κ × α))
    (h : k' ≠ k) : lookupA k' (insertA k v l) = lookupA k' l := by
  have hne : k ≠ k' := fun hh => h hh.symm
  induction l with
  | nil => simp [insertA, lookupA, hne]
  | cons p t ih =>
    obtain ⟨k2, v2⟩ := p
    by_cases h2 : k2 = k
    · subst h2
      simp [insertA, lookupA, hne]
    · simp [insertA, h2, lookupA, ih]

theorem mem_addSet_iff [DecidableEq α] (a b : α) (l : List α) :
    a ∈ addSet b l ↔ a = b ∨ a ∈ l := by
  by_cases h : b ∈ l
  · simp only [addSet, if_pos h]
    constructor
    · exact fun ha => Or.inr ha
    · rintro (rfl | ha) <;> assumption
  · simp [addSet, if_neg h, or_comm]

theorem self_mem_addSet [DecidableEq α] (a : α) (l : List α) : a ∈ addSet a l := by
  rw [mem_addSet_iff]; exact Or.inl rfl

theorem mem_map_fst_insertA [DecidableEq κ] (k : κ) (v : α) (l : List (κ × α)) :
    k ∈ (insertA k v l).map Prod.fst := by
  induction l with
  | nil => simp [insertA]
  | cons p t ih =>
    obtain ⟨k', v'⟩ := p
    by_cases h : k' = k
    · simp [insertA, h]
    · simp only [insertA, if_neg h, List.map_cons, List.mem_cons]
      exact Or.inr ih

theorem splitOnChar_ne_nil (c : Char) (s : Str) : splitOnChar c s ≠ [] := by
  cases s with
  | nil => simp [splitOnChar]
  | cons x xs =>
    by_cases hx : x = c
    · simp [splitOnChar, hx]
    · simp only [splitOnChar, if_neg hx]
      cases h : splitOnChar c xs with
      | nil => simp
      | cons hh tt => simp

theorem startsWithAlias_iff (s : Str) :
    isPrefixL "@/".data s = true ↔ ∃ r, s = '@' :: '/' :: r := by
  show isPrefixL ['@', '/'] s = true ↔ _
  match s with
  | [] => simp [isPrefixL]
  | [a] => simp [isPrefixL]
  | a :: b :: r =>
    constructor
    · intro h
      simp [isPrefixL] at h
      exact ⟨r, by simp [h.1.symm, h.2.symm]⟩
    · rintro ⟨r', hr⟩
      cases hr
      simp [isPrefixL]

theorem splitOnChar_alias (r : Str) :
    splitOnChar '/' ('@' :: '/' :: r) = ['@'] :: splitOnChar '/' r := by
  have h2 : splitOnChar '/' ('/' :: r) = [] :: splitOnChar '/' r := by
    simp [splitOnChar]
  simp [splitOnChar, h2]

theorem categoryOf_eq_spec (s : Str) : categoryOf s = some (specCategorizeC2 s) := by
  by_cases h : isPrefixL "@/".data s = true
  · obtain ⟨r, rfl⟩ := (startsWithAlias_iff s).mp h
    have hne := splitOnChar_ne_nil '/' r
    have hlen : (splitOnChar '/' ('@' :: '/' :: r)).length > 1 := by
      rw [splitOnChar_alias]
      have := List.length_pos.mpr hne
      simp only [List.length_cons]
      omega
    simp only [categoryOf, specCategorizeC2, h, if_true, hlen, if_pos]
    repeat (first | rfl | split)
  · have h2 : isPrefixL "@/".data s = false := by
      revert h
      cases isPrefixL "@/".data s <;> simp
    simp only [categoryOf, specCategorizeC2, h2, Bool.false_eq_true, if_false]
    repeat (first | rfl | split)

theorem categorize_applyCat (s : Str) (d : DepInfo) :
    categorizeDependency s d = applyCat (specCategorizeC2 s) s d := by
  cases d with
  | mk comps hooks utils types styles external api depth parent =>
    by_cases h : isPrefixL "@/".data s = true
    · obtain ⟨r, rfl⟩ := (startsWithAlias_iff s).mp h
      have hne := splitOnChar_ne_nil '/' r
      have hlen : (splitOnChar '/' ('@' :: '/' :: r)).length > 1 := by
        rw [splitOnChar_alias]
        have := List.length_pos.mpr hne
        simp only [List.length_cons]
        omega
      simp only [categorizeDependency, specCategorizeC2, applyCat, h, if_true, hlen, if_pos]
      repeat (first | rfl | split)
    · have h2 : isPrefixL "@/".data s = false := by
        revert h
        cases isPrefixL "@/".data s <;> simp
      simp only [categorizeDependency, specCategorizeC2, applyCat, h2, Bool.false_eq_true,
        if_false]
      repeat (first | rfl | split)

/-- Claim C2: the classifier decides by first-match-wins precedence, alias
segment first (so "@/components/hooks/Foo" is a component), then the fixed
substring order (so "../hooks/useThing" is a hook), then bare names as
external, and util as the default: the source classifier agrees with the
spec's decision procedure on every specifier, and on the two quoted
examples. -/
theorem claim_C2_classifier :
    (∀ s : Str, categoryOf s = some (specCategorizeC2 s)) ∧
    categoryOf "@/components/hooks/Foo".data = some Category.component ∧
    categoryOf "../hooks/useThing".data = some Category.hook :=
  ⟨categoryOf_eq_spec, rfl, rfl⟩

/-- Claim C10: classification is total and exclusive: every call of
_categorize_dependency files the specifier under exactly one of the seven
collections — it is a member of that collection afterwards, and the other
six collections are unchanged. -/
theorem claim_C10_total_exclusive (s : Str) (d : DepInfo) :
    ∃ c : Category,
      s ∈ fieldKeys c (categorizeDependency s d) ∧
      (allCategories.all (fun c2 =>
        decide (c2 = c) ||
        decide (fieldKeys c2 (categorizeDependency s d) = fieldKeys c2 d))) = true := by
  refine ⟨specCategorizeC2 s, ?_, ?_⟩
  · rw [categorize_applyCat]
    cases d with
    | mk comps hooks utils types styles external api depth parent =>
      cases specCategorizeC2 s
      case component =>
        simp only [applyCat, fieldKeys, DepInfo.components]
        exact mem_map_fst_insertA s _ comps
      case hook =>
        simp only [applyCat, fieldKeys, DepInfo.hooks]
        exact self_mem_addSet s hooks
      case util =>
        simp only [applyCat, fieldKeys, DepInfo.utils]
        exact self_mem_addSet s utils
      case type =>
        simp only [applyCat, fieldKeys, DepInfo.typesSet]
        exact self_mem_addSet s types
      case api =>
        simp only [applyCat, fieldKeys, DepInfo.apiSet]
        exact self_mem_addSet s api
      case style =>
        simp only [applyCat, fieldKeys, DepInfo.styles]
        exact self_mem_addSet s styles
      case external =>
        simp only [applyCat, fieldKeys, DepInfo.externalSet]
        exact self_mem_addSet s external
  · rw [categorize_applyCat]
    cases d with
    | mk comps hooks utils types styles external api depth parent =>
      cases specCategorizeC2 s <;>
        simp only [allCategories, applyCat, fieldKeys, List.all_cons, List.all_nil,
          DepInfo.components, DepInfo.hooks, DepInfo.utils, DepInfo.typesSet, DepInfo.styles,
          DepInfo.externalSet, DepInfo.apiSet, decide_True, decide_eq_true_eq,
          Bool.or_true, Bool.true_or, Bool.and_true, Bool.true_and]

/-! ## Cycle detector lemmas -/

theorem flatMapCongr (l : List α) (f g : α → List β) (h : ∀ x ∈ l, f x = g x) :
    l.flatMap f = l.flatMap g := by
  induction l with
  | nil => rfl
  | cons x xs ih =>
    simp only [List.flatMap_cons]
    rw [h x (by simp), ih (fun y hy => h y (by simp [hy]))]

theorem length_filter_le_mono (l : List α) (p q : α → Bool)
    (himp : ∀ a, q a = true → p a = true) :
    (l.filter q).length ≤ (l.filter p).length := by
  induction l with
  | nil => simp
  | cons x xs ih =>
    by_cases hq : q x = true
    · simp only [List.filter_cons, hq, himp x hq, if_true, List.length_cons]
      omega
    · have hq2 : q x = false := by revert hq; cases q x <;> simp
      simp only [List.filter_cons, hq2, Bool.false_eq_true, if_false]
      cases hp : p x
      · simp only [Bool.false_eq_true, if_false]
        exact ih
      · simp only [if_true, List.length_cons]
        omega

theorem length_filter_lt (l : List α) (p q : α → Bool)
    (himp : ∀ a, q a = true → p a = true) (a : α) (ha : a ∈ l) (hpa : p a = true)
    (hqa : q a = false) : (l.filter q).length < (l.filter p).length := by
  induction l with
  | nil => cases ha
  | cons x xs ih =>
    rcases List.mem_cons.mp ha with rfl | hmem
    · simp only [List.filter_cons, hpa, hqa, if_true, Bool.false_eq_true, if_false]
      have := length_filter_le_mono xs p q himp
      simp only [List.length_cons]
      omega
    · by_cases hq : q x = true
      · simp only [List.filter_cons, hq, himp x hq, if_true, List.length_cons]
        exact Nat.succ_lt_succ (ih hmem)
      · have hq2 : q x = false := by revert hq; cases q x <;> simp
        simp only [List.filter_cons, hq2, Bool.false_eq_true, if_false]
        have hih := ih hmem
        cases hp : p x
        · simp only [Bool.false_eq_true, if_false]
          exact hih
        · simp only [if_true, List.length_cons]
          omega

theorem lookupA_mem [DecidableEq κ] (k : κ) (v : α) (l : List (κ × α))
    (h : lookupA k l = some v) : (k, v) ∈ l := by
  induction l with
  | nil => simp [lookupA] at h
  | cons p t ih =>
    obtain ⟨k', v'⟩ := p
    by_cases hk : k' = k
    · subst hk
      have hv : v' = v := by simpa [lookupA] using h
      subst hv
      simp
    · simp only [lookupA, if_neg hk] at h
      simp [ih h]

theorem mem_adjOf_targets (g : List (Str × List Str)) (s dep : Str)
    (h : dep ∈ adjOf g s) : dep ∈ (allTargets g).dedup := by
  rw [List.mem_dedup]
  unfold adjOf at h
  cases hl : lookupA s g with
  | none => rw [hl] at h; cases h
  | some ts =>
    rw [hl] at h
    simp only [Option.getD_some] at h
    have hmem := lookupA_mem s ts g hl
    unfold allTargets
    rw [List.mem_flatten]
    exact ⟨ts, List.mem_map.mpr ⟨(s, ts), hmem, rfl⟩, h⟩

theorem missingCount_lt (g : List (Str × List Str)) (s dep : Str) (cur : List Str)
    (hadj : dep ∈ adjOf g s) (hnot : dep ∉ cur) :
    missingCount g (cur ++ [dep]) < missingCount g cur := by
  unfold missingCount
  apply length_filter_lt _ _ _ _ dep (mem_adjOf_targets g s dep hadj)
  · simp [hnot]
  · simp
  · intro a hq
    simp only [Bool.not_eq_true', decide_eq_false_iff_not, List.mem_append,
      List.mem_singleton] at hq ⊢
    exact fun hc => hq (Or.inl hc)

theorem findCyclesF_fuel_eq (g : List (Str × List Str)) :
    ∀ f1 f2 s path, missingCount g (path ++ [s]) < f1 →
      missingCount g (path ++ [s]) < f2 →
      findCyclesF g f1 s path = findCyclesF g f2 s path := by
  intro f1
  induction f1 with
  | zero => intro f2 s path h1 h2; omega
  | succ m ih =>
    intro f2 s path h1 h2
    cases f2 with
    | zero => omega
    | succ n =>
      simp only [findCyclesF]
      apply flatMapCongr
      intro dep hdep
      by_cases hmem : dep ∈ path ++ [s]
      · simp [hmem]
      · simp only [if_neg hmem]
        have hlt := missingCount_lt g s dep (path ++ [s]) hdep hmem
        exact ih n dep (path ++ [s]) (by omega) (by omega)

/-- Claim C1: on the graph with edges A to B, B to C, C to A, the cycle
detector called with start file A and empty path reports exactly the cycle
[A, B, C, A], computed as current_path[current_path.index(target):] +
[target] at the point of repetition. -/
theorem claim_C1_cycle_report :
    findCycles cycleGraphC1 "A".data [] =
      [["A".data, "B".data, "C".data, "A".data]] := rfl

/-- Claim C9: the cycle detector terminates on every finite graph, cyclic
ones included: each recursive call extends the current path by a node not
already on it, so any fuel of at least one more than the number of
distinct edge targets computes the same (fuel-independent) result as the
chosen bound — the recursion bottoms out by itself, never by fuel. -/
theorem claim_C9_termination (g : List (Str × List Str)) (s : Str) (f : Nat)
    (h : cyclesBound g ≤ f) : findCyclesF g f s [] = findCycles g s [] := by
  have hle : missingCount g ([] ++ [s]) ≤ (allTargets g).dedup.length :=
    List.length_filter_le _ _
  have hb : cyclesBound g = (allTargets g).dedup.length + 1 := rfl
  exact findCyclesF_fuel_eq g f (cyclesBound g) s [] (by omega) (by omega)

/-- Witness for claim C9 at the concrete three-cycle graph with surplus
fuel. -/
theorem claim_C9_termination_witness :
    findCyclesF cycleGraphC1 10 "A".data [] = findCycles cycleGraphC1 "A".data [] :=
  claim_C9_termination cycleGraphC1 "A".data 10 (by decide)

/-! ## Walker lemmas -/

theorem depLoop_pres (env : WalkEnv) (next : AnalyzerSt → Str → AnalyzerSt) (fileKey : Str)
    (P : AnalyzerSt → Prop)
    (hedge : ∀ st dp r, env.resolve dp = some r → P st →
      P { st with graph := graphAdd fileKey r st.graph })
    (hnext : ∀ st r, P st → isAnalyzedB env st r = false → P (next st r)) :
    ∀ l st, P st → P (depLoop env next fileKey st l) := by
  intro l
  induction l with
  | nil => intro st h; exact h
  | cons dp rest ih =>
    intro st h
    simp only [depLoop]
    cases hres : env.resolve dp with
    | none => exact ih st h
    | some r =>
      have hP3 := hedge st dp r hres h
      by_cases hA : isAnalyzedB env { st with graph := graphAdd fileKey r st.graph } r = true
      · simp only [hA, if_true]
        exact ih _ hP3
      · have hAf : isAnalyzedB env { st with graph := graphAdd fileKey r st.graph } r = false := by
          revert hA
          cases isAnalyzedB env { st with graph := graphAdd fileKey r st.graph } r <;> simp
        simp only [hAf, Bool.false_eq_true, if_false]
        exact ih _ (hnext _ r hP3 hAf)

theorem processFile_graph (env : WalkEnv) (st : AnalyzerSt) (fp : Str) (d : Nat) :
    (processFile env st fp d).graph = st.graph := by
  unfold processFile
  repeat' split
  all_goals rfl

theorem processFile_inv (env : WalkEnv) (st : AnalyzerSt) (fp : Str) (d : Nat)
    (hInv : InvSt st) (hNA : isAnalyzedB env st fp = false) :
    InvSt (processFile env st fp d) := by
  unfold processFile
  cases hrel : env.rel fp with
  | none => exact hInv
  | some k =>
    by_cases hig : env.ignore fp = true
    · simp only [hig, if_true]
      exact hInv
    · have hig2 : env.ignore fp = false := by revert hig; cases env.ignore fp <;> simp
      simp only [hig2, Bool.false_eq_true, if_false]
      cases env.ftype fp with
      | none => exact hInv
      | some ft =>
        cases env.readFile fp with
        | none => exact hInv
        | some content =>
          have hkA : analyzedKeyB st k = false := by
            have := hNA
            unfold isAnalyzedB at this
            rw [hrel] at this
            exact this
          have hkNot : k ∉ st.extractLog := by
            intro hk
            have := hInv.2 k hk
            rw [hkA] at this
            cases this
          refine ⟨?_, ?_⟩
          · simp only [List.nodup_append, List.nodup_cons, List.nodup_nil, and_true,
              List.not_mem_nil, not_false_iff]
            exact ⟨hInv.1, by simpa [List.disjoint_left] using hkNot⟩
          · intro k2 hk2
            rcases List.mem_append.mp hk2 with hmem | hk2eq
            · have hne : k2 ≠ k := fun hh => hkNot (hh ▸ hmem)
              unfold analyzedKeyB
              simp only
              rw [lookupA_insertA_ne k k2 _ st.files hne]
              exact hInv.2 k2 hmem
            · have : k2 = k := by simpa using hk2eq
              subst this
              unfold analyzedKeyB
              simp only
              rw [lookupA_insertA_self]

theorem isAnalyzedB_initSt (env : WalkEnv) (fp : Str) : isAnalyzedB env initSt fp = false := by
  unfold isAnalyzedB
  cases env.rel fp <;> rfl

theorem analyzeFileF_inv (env : WalkEnv) :
    ∀ fuel st fp d, InvSt st → isAnalyzedB env st fp = false →
      InvSt (analyzeFileF env fuel st fp d) := by
  intro fuel
  induction fuel with
  | zero => intro st fp d h _; exact h
  | succ m ih =>
    intro st fp d hInv hNA
    simp only [analyzeFileF]
    by_cases hd : env.maxDepth < d
    · simp only [hd, if_true]
      exact hInv
    · simp only [hd, if_false]
      by_cases hex : env.fexists fp = false
      · simp only [hex, if_true]
        exact hInv
      · simp only [hex, if_false]
        have h1 : InvSt (processFile env st fp d) := processFile_inv env st fp d hInv hNA
        by_cases hdeep : env.deepMode = true
        · simp only [hdeep, if_true]
          cases hlook : lookupA ((env.rel fp).getD fp) (processFile env st fp d).files with
          | none => simp only [hlook]; exact h1
          | some fi =>
            simp only [hlook]
            exact depLoop_pres env _ _ InvSt
              (fun st2 dp r _ hP => hP)
              (fun st2 r hP hA => ih st2 r (d + 1) hP hA)
              _ _ h1
        · have hdeep2 : env.deepMode = false := by revert hdeep; cases env.deepMode <;> simp
          simp only [hdeep2, Bool.false_eq_true, if_false]
          exact h1

/-- Claim C3: during deep analysis a file already marked analyzed is never
re-extracted: in any run from the initial state every file key appears at
most once in the extraction log; in the concrete mutually-dependent
scenario A and B are each extracted exactly once and the second encounter
of A (reached back from B) still records the incoming edge B to A. -/
theorem claim_C3_memoization :
    (∀ (env : WalkEnv) (fp : Str) (d : Nat),
      ((analyzeFile env initSt fp d).extractLog).Nodup) ∧
    (analyzeFile c3env initSt "src/A.ts".data 0).extractLog
      = ["src/A.ts".data, "src/B.ts".data] ∧
    lookupA "src/B.ts".data (analyzeFile c3env initSt "src/A.ts".data 0).graph
      = some ["src/A.ts".data] := by
  refine ⟨?_, rfl, rfl⟩
  intro env fp d
  have h := analyzeFileF_inv env (env.maxDepth + 2 - d) initSt fp d
    ⟨List.nodup_nil, fun k hk => absurd hk (List.not_mem_nil k)⟩
    (isAnalyzedB_initSt env fp)
  exact h.1

theorem edgeIn_graphAdd (fk r k t : Str) (g : List (Str × List Str))
    (h : ∃ ts, lookupA k (graphAdd fk r g) = some ts ∧ t ∈ ts) :
    t = r ∨ ∃ ts, lookupA k g = some ts ∧ t ∈ ts := by
  induction g with
  | nil =>
    obtain ⟨ts, hl, ht⟩ := h
    simp only [graphAdd, lookupA] at hl
    by_cases hk : fk = k
    · rw [if_pos hk] at hl
      cases hl
      simp only [List.mem_singleton] at ht
      exact Or.inl ht
    · rw [if_neg hk] at hl
      cases hl
  | cons p tail ih =>
    obtain ⟨k2, ts2⟩ := p
    obtain ⟨ts, hl, ht⟩ := h
    by_cases h2 : k2 = fk
    · subst h2
      simp only [graphAdd, if_pos rfl] at hl
      by_cases h3 : k2 = k
      · subst h3
        simp only [lookupA, eq_self_iff_true, if_true, Option.some.injEq] at hl
        subst hl
        rcases (mem_addSet_iff t r ts2).mp ht with rfl | hmem
        · exact Or.inl rfl
        · exact Or.inr ⟨ts2, by simp [lookupA], hmem⟩
      · simp only [lookupA, if_neg h3] at hl
        exact Or.inr ⟨ts, by simp [lookupA, h3, hl], ht⟩
    · simp only [graphAdd, if_neg h2] at hl
      by_cases h3 : k2 = k
      · subst h3
        simp only [lookupA, eq_self_iff_true, if_true, Option.some.injEq] at hl
        subst hl
        exact Or.inr ⟨ts2, by simp [lookupA], ht⟩
      · simp only [lookupA, if_neg h3] at hl
        rcases ih ⟨ts, hl, ht⟩ with htr | ⟨ts3, hl3, ht3⟩
        · exact Or.inl htr
        · exact Or.inr ⟨ts3, by simp [lookupA, h3, hl3], ht3⟩

theorem analyzeFileF_graphOK (env : WalkEnv) :
    ∀ fuel st fp d, GraphTargetsOK env st →
      GraphTargetsOK env (analyzeFileF env fuel st fp d) := by
  intro fuel
  induction fuel with
  | zero => intro st fp d h; exact h
  | succ m ih =>
    intro st fp d hOK
    simp only [analyzeFileF]
    by_cases hd : env.maxDepth < d
    · simp only [hd, if_true]
      exact hOK
    · simp only [hd, if_false]
      by_cases hex : env.fexists fp = false
      · simp only [hex, if_true]
        exact hOK
      · simp only [hex, if_false]
        have h1 : GraphTargetsOK env (processFile env st fp d) := by
          intro k t ht
          apply hOK k t
          unfold edgeIn at ht ⊢
          rw [processFile_graph] at ht
          exact ht
        by_cases hdeep : env.deepMode = true
        · simp only [hdeep, if_true]
          cases hlook : lookupA ((env.rel fp).getD fp) (processFile env st fp d).files with
          | none => simp only [hlook]; exact h1
          | some fi =>
            simp only [hlook]
            refine depLoop_pres env _ _ (GraphTargetsOK env) ?_ ?_ _ _ h1
            · intro st2 dp r hres hP k t ht
              obtain ⟨ts, hl, hmem⟩ := ht
              rcases edgeIn_graphAdd _ r k t st2.graph ⟨ts, hl, hmem⟩ with rfl | hold
              · exact ⟨dp, hres⟩
              · exact hP k t hold
            · intro st2 r hP _
              exact ih st2 r (d + 1) hP
        · have hdeep2 : env.deepMode = false := by revert hdeep; cases env.deepMode <;> simp
          simp only [hdeep2, Bool.false_eq_true, if_false]
          exact h1

/-- Claim C6: a specifier that no strategy resolves yields no edge and no
error: every edge target the walker ever records is in the range of the
resolver (so an unresolvable specifier never appears), and in the concrete
scenario the unresolvable ./missing of A is dropped silently while the
remaining dependency ./depB is still resolved, recorded and analyzed, with
zero reported errors. -/
theorem claim_C6_unresolved_dropped (env : WalkEnv) (st : AnalyzerSt) (fp : Str) (d : Nat)
    (h : GraphTargetsOK env st) :
    GraphTargetsOK env (analyzeFile env st fp d) ∧
    (analyzeFile c6env initSt "A.ts".data 0).graph = [("A.ts".data, ["B.ts".data])] ∧
    (analyzeFile c6env initSt "A.ts".data 0).errors = 0 ∧
    analyzedKeyB (analyzeFile c6env initSt "A.ts".data 0) "B.ts".data = true :=
  ⟨analyzeFileF_graphOK env _ st fp d h, rfl, rfl, rfl⟩

/-- Witness for claim C6: the concrete scenario run, its vacuous
graph-target hypothesis discharged at the empty initial graph. -/
theorem claim_C6_unresolved_dropped_witness :
    GraphTargetsOK c6env (analyzeFile c6env initSt "A.ts".data 0) ∧
    (analyzeFile c6env initSt "A.ts".data 0).graph = [("A.ts".data, ["B.ts".data])] ∧
    (analyzeFile c6env initSt "A.ts".data 0).errors = 0 ∧
    analyzedKeyB (analyzeFile c6env initSt "A.ts".data 0) "B.ts".data = true :=
  claim_C6_unresolved_dropped c6env initSt "A.ts".data 0
    (fun k t ht => by
      obtain ⟨ts, hl, _⟩ := ht
      simp [initSt, lookupA] at hl)

/-- Claim C4: for every depth strictly above max_depth, analyze_file is a
no-op; with max_depth = 0 the concrete A-imports-B run leaves only A in
the files table (B is never analyzed), records exactly the one edge A to B
(edges are recorded before the recursion guard), and extracts only A. -/
theorem claim_C4_depth_guard (env : WalkEnv) (st : AnalyzerSt) (fp : Str) (d : Nat)
    (h : env.maxDepth < d) :
    analyzeFile env st fp d = st ∧
    ((analyzeFile c4env initSt "A.ts".data 0).files.map Prod.fst = ["A.ts".data] ∧
      lookupA "B.ts".data (analyzeFile c4env initSt "A.ts".data 0).files = none ∧
      (analyzeFile c4env initSt "A.ts".data 0).graph = [("A.ts".data, ["B.ts".data])] ∧
      (analyzeFile c4env initSt "A.ts".data 0).extractLog = ["A.ts".data]) := by
  refine ⟨?_, rfl, rfl, rfl, rfl⟩
  unfold analyzeFile
  cases hf : env.maxDepth + 2 - d with
  | zero => rfl
  | succ m => simp [analyzeFileF, h]

/-- Witness for claim C4: the concrete max_depth-0 environment at depth 1
(the recursive call into B), a strict no-op. -/
theorem claim_C4_depth_guard_witness :
    analyzeFile c4env initSt "B.ts".data 1 = initSt ∧
    ((analyzeFile c4env initSt "A.ts".data 0).files.map Prod.fst = ["A.ts".data] ∧
      lookupA "B.ts".data (analyzeFile c4env initSt "A.ts".data 0).files = none ∧
      (analyzeFile c4env initSt "A.ts".data 0).graph = [("A.ts".data, ["B.ts".data])] ∧
      (analyzeFile c4env initSt "A.ts".data 0).extractLog = ["A.ts".data]) :=
  claim_C4_depth_guard c4env initSt "B.ts".data 1 (by decide)

/-- Claim C7: for a path that does not exist, analyze_file (called within
the depth bound) reports exactly one non-fatal error and returns with the
files table, dependency graph and extraction log untouched. -/
theorem claim_C7_missing_file (env : WalkEnv) (st : AnalyzerSt) (fp : Str) (d : Nat)
    (h1 : d ≤ env.maxDepth) (h2 : env.fexists fp = false) :
    analyzeFile env st fp d = { st with errors := st.errors + 1 } := by
  unfold analyzeFile
  have hf : env.maxDepth + 2 - d = (env.maxDepth + 1 - d) + 1 := by omega
  rw [hf]
  simp [analyzeFileF, Nat.not_lt.mpr h1, h2]

/-- Witness for claim C7: the all-missing environment at a concrete path
and depth zero. -/
theorem claim_C7_missing_file_witness :
    analyzeFile c7env initSt "X.ts".data 0 = { initSt with errors := initSt.errors + 1 } :=
  claim_C7_missing_file c7env initSt "X.ts".data 0 (by decide) rfl

/-! ## Search index lemmas -/

theorem lookupA_append [DecidableEq κ] (k : κ) (l1 l2 : List (κ × α)) :
    lookupA k (l1 ++ l2) =
      match lookupA k l1 with
      | some v => some v
      | none => lookupA k l2 := by
  induction l1 with
  | nil => rfl
  | cons q t ih =>
    obtain ⟨k2, v2⟩ := q
    by_cases h : k2 = k
    · simp [lookupA, h]
    · simp [lookupA, h, ih]

theorem lookupA_indexAdd_self (nk pk : Str) (idx : List (Str × List Str)) :
    lookupA nk (indexAdd nk pk idx) = some (addSet pk ((lookupA nk idx).getD [])) := by
  unfold indexAdd
  cases hl : lookupA nk idx with
  | some paths => rw [lookupA_insertA_self]; rfl
  | none =>
    rw [lookupA_append, hl]
    simp [lookupA, addSet]

theorem lookupA_indexAdd_ne (name nk pk : Str) (idx : List (Str × List Str))
    (h : name ≠ nk) : lookupA name (indexAdd nk pk idx) = lookupA name idx := by
  have h2 : nk ≠ name := fun hh => h hh.symm
  unfold indexAdd
  cases hl : lookupA nk idx with
  | some paths => exact lookupA_insertA_ne nk name _ idx h
  | none =>
    rw [lookupA_append]
    cases hv : lookupA name idx with
    | some v => rfl
    | none => simp [lookupA, h2]

theorem idxMem_indexAdd (name p nk pk : Str) (idx : List (Str × List Str)) :
    idxMem name p (indexAdd nk pk idx) ↔ (name = nk ∧ p = pk) ∨ idxMem name p idx := by
  by_cases hn : name = nk
  · subst hn
    unfold idxMem
    rw [lookupA_indexAdd_self]
    constructor
    · rintro ⟨ts, hts, hp⟩
      injection hts with hts
      subst hts
      rcases (mem_addSet_iff p pk _).mp hp with rfl | hmem
      · exact Or.inl ⟨rfl, rfl⟩
      · cases hv : lookupA name idx with
        | some paths =>
          rw [hv] at hmem
          exact Or.inr ⟨paths, rfl, by simpa using hmem⟩
        | none =>
          rw [hv] at hmem
          simp at hmem
    · rintro (⟨-, rfl⟩ | ⟨ts, hts, hp⟩)
      · exact ⟨_, rfl, self_mem_addSet p _⟩
      · refine ⟨_, rfl, (mem_addSet_iff p pk _).mpr (Or.inr ?_)⟩
        rw [hts]
        exact hp
  · unfold idxMem
    rw [lookupA_indexAdd_ne name nk pk idx hn]
    simp [hn]

theorem buildFileIndex_mem (ignorePats : List Str) (rootLen : Nat) :
    ∀ (walk : List FSEntry) (idx : List (Str × List Str)) (name p : Str),
      idxMem name p (buildFileIndex ignorePats rootLen walk idx) ↔
        idxMem name p idx ∨
        ∃ e, e ∈ walk ∧ e.isFile = true ∧ shouldIgnoreParts ignorePats e.parts = false ∧
          e.parts.getLastD [] = name ∧ joinSlash (e.parts.drop rootLen) = p := by
  intro walk
  induction walk with
  | nil =>
    intro idx name p
    simp [buildFileIndex]
  | cons e rest ih =>
    intro idx name p
    simp only [buildFileIndex]
    by_cases hskip : (e.isFile = false || shouldIgnoreParts ignorePats e.parts) = true
    · simp only [hskip, if_true]
      rw [ih]
      constructor
      · rintro (h | ⟨e2, he2, h2⟩)
        · exact Or.inl h
        · exact Or.inr ⟨e2, List.mem_cons_of_mem e he2, h2⟩
      · rintro (h | ⟨e2, he2, hf, hig, hrest⟩)
        · exact Or.inl h
        · rcases List.mem_cons.mp he2 with rfl | hmem
          · rcases Bool.or_eq_true_iff.mp hskip with hc | hc
            · rw [hf] at hc
              cases hc
            · rw [hig] at hc
              cases hc
          · exact Or.inr ⟨e2, hmem, hf, hig, hrest⟩
    · have hskip2 : (e.isFile = false || shouldIgnoreParts ignorePats e.parts) = false := by
        revert hskip
        cases e.isFile = false || shouldIgnoreParts ignorePats e.parts <;> simp
      rcases Bool.or_eq_false_iff.mp hskip2 with ⟨hf0, hig0⟩
      have hf : e.isFile = true := by
        revert hf0
        cases e.isFile <;> simp
      simp only [hskip2, Bool.false_eq_true, if_false]
      rw [ih, idxMem_indexAdd]
      constructor
      · rintro ((⟨hn, hp⟩ | h) | ⟨e2, he2, h2⟩)
        · exact Or.inr ⟨e, List.mem_cons_self e rest, hf, hig0, hn.symm, hp.symm⟩
        · exact Or.inl h
        · exact Or.inr ⟨e2, List.mem_cons_of_mem e he2, h2⟩
      · rintro (h | ⟨e2, he2, hf2, hig2, hn2, hp2⟩)
        · exact Or.inl (Or.inr h)
        · rcases List.mem_cons.mp he2 with rfl | hmem
          · exact Or.inl (Or.inl ⟨hn2.symm, hp2.symm⟩)
          · exact Or.inr ⟨e2, hmem, hf2, hig2, hn2, hp2⟩

/-- Claim C8: the index build visits each walk entry once, skips exactly
the paths with an ignored segment, and records each remaining file's
basename under its path relative to the walk root: a path is indexed under
a basename precisely when some visited, non-ignored file has that basename
and that relative path. -/
theorem claim_C8_file_index (ignorePats : List Str) (rootLen : Nat) (walk : List FSEntry)
    (name p : Str) :
    idxMem name p (buildFileIndex ignorePats rootLen walk []) ↔
      ∃ e, e ∈ walk ∧ e.isFile = true ∧ shouldIgnoreParts ignorePats e.parts = false ∧
        e.parts.getLastD [] = name ∧ joinSlash (e.parts.drop rootLen) = p := by
  rw [buildFileIndex_mem]
  have hempty : ¬ idxMem name p [] := by
    rintro ⟨ts, hts, -⟩
    cases hts
  constructor
  · rintro (h | h)
    · exact absurd h hempty
    · exact h
  · exact Or.inr

/-- Counterexample to claim C5: in the wired run, file root/lib/B.ts is
analyzed (it is in the files table under key lib/B.ts) and its
relative import ./C is recorded as the edge to root/src/app/C.ts, the path probed
from the parent directory of the configured target root/src/app/A.ts —
whereas resolution against the directory of the file currently being
analyzed, root/lib, as the claim states, yields root/lib/C.ts, a different
existing file. -/
theorem claim_C5_counterexample :
    lookupA "lib/B.ts".data (analyzeFile c5env initSt "root/src/app/A.ts".data 0).graph
      = some ["root/src/app/C.ts".data] ∧
    (lookupA "lib/B.ts".data
      (analyzeFile c5env initSt "root/src/app/A.ts".data 0).files).isSome = true ∧
    specRelativeResolve c5fs ["root".data, "lib".data] "./C".data
      = some ["root".data, "lib".data, "C.ts".data] ∧
    joinSlash ["root".data, "lib".data, "C.ts".data] ≠ "root/src/app/C.ts".data := by
  refine ⟨rfl, rfl, rfl, ?_⟩
  decide

/-- Claim C5 as amended: for a specifier beginning with ./ or ../ the
resolver resolves against the parent directory of the configured project
path — a directory fixed for the whole run, not the directory of the file
currently being analyzed — and where that relative strategy succeeds
(exact path, else first existing entry of the probe list, in the claimed
order) the resolver returns its result; the strategy itself coincides with
the spec's probing procedure applied at that fixed directory. -/
theorem claim_C5_relative_resolution (fs : FS) (idx : SearchIdxR)
    (aliases : List (Str × Str)) (ignorePats : List Str) (cfgProjectPath : List Str)
    (importPath : Str) (p : List Str)
    (h : relativeStrategy fs cfgProjectPath.dropLast importPath = some p) :
    resolveDependencyPath fs idx aliases ignorePats cfgProjectPath importPath = some p ∧
    relativeStrategy fs cfgProjectPath.dropLast importPath
      = specRelativeResolve fs cfgProjectPath.dropLast importPath := by
  refine ⟨?_, rfl⟩
  unfold resolveDependencyPath
  simp only [h]

/-- Witness for the amended claim C5: the concrete run's resolution of ./C
from the fixed directory root/src/app. -/
theorem claim_C5_relative_resolution_witness :
    resolveDependencyPath c5fs c5idx [] [] c5cfgPath "./C".data
      = some ["root".data, "src".data, "app".data, "C.ts".data] ∧
    relativeStrategy c5fs c5cfgPath.dropLast "./C".data
      = specRelativeResolve c5fs c5cfgPath.dropLast "./C".data :=
  claim_C5_relative_resolution c5fs c5idx [] [] c5cfgPath "./C".data
    ["root".data, "src".data, "app".data, "C.ts".data] rfl
